import Mathlib

/-!
Shallow embedding of the `ibu` crate's binary I/O core: the fixed-layout
header/record codec (`src/constructs/header.rs`, `src/constructs/record.rs`),
the memory-mapped view and its parallel-processing partition
(`src/io/mmap.rs`), the streaming reader (`src/io/reader.rs`) and the
buffered writer (`src/io/writer.rs`).

Bytes are modelled as `Nat` (values produced by the encoders are `< 256`);
machine integers (`u32`, `u64`, `usize`) are modelled as `Nat` with explicit
range hypotheses where a theorem depends on them.  Fallible Rust paths
(`crate::Result`) are modelled with `Except IbuError`; a Rust panic (an
out-of-bounds slice index) is modelled as `Option.none` on the affected
constructor.  A byte sink (`W: Write` backed by `Vec<u8>`) is an accumulated
`List Nat`; a byte source (`R: Read`) is a list of chunks, each `read` call
yielding (a prefix of) the next chunk, an empty chunk modelling a read that
returns `Ok(0)`.
-/

namespace Ibu

/-- Magic constant from `src/constructs/header.rs`: `0x21554249` ("IBU!"). -/
def MAGIC : Nat := 0x21554249

/-- Supported format version from `src/constructs/header.rs`. -/
def VERSION : Nat := 2

/-- `HEADER_SIZE = size_of::<Header>() = 32`. -/
def HEADER_SIZE : Nat := 32

/-- `RECORD_SIZE = size_of::<Record>() = 24`. -/
def RECORD_SIZE : Nat := 24

/-- Batch size for parallel processing, `src/io/mmap.rs`. -/
def BATCH_SIZE : Nat := 1024 * 1024

/-- Internal buffer capacity shared by reader and writer
(`48 * 1024 * RECORD_SIZE` bytes). -/
def DEFAULT_BUFFER_SIZE : Nat := 48 * 1024 * RECORD_SIZE

/-- Error type of the crate, `src/error.rs` (`IbuError`).  `IoFailure`
stands for any propagated `std::io::Error`; `ProcessFailure` for an error
surfaced by caller-supplied processor logic (the payload tags which one). -/
inductive IbuError where
  | IoFailure : IbuError
  | InvalidMagicNumber (expected actual : Nat) : IbuError
  | TruncatedRecord (pos : Nat) : IbuError
  | InvalidVersion (expected actual : Nat) : IbuError
  | InvalidBarcodeLength (len : Nat) : IbuError
  | InvalidUmiLength (len : Nat) : IbuError
  | InvalidMapSize : IbuError
  | InvalidIndex (idx max : Nat) : IbuError
  | ProcessFailure (tag : Nat) : IbuError
deriving DecidableEq, Repr

/-- Little-endian encoding of a `u32` into 4 bytes. -/
def u32ToLE (x : Nat) : List Nat :=
  [x % 256, x / 2 ^ 8 % 256, x / 2 ^ 16 % 256, x / 2 ^ 24 % 256]

/-- Little-endian encoding of a `u64` into 8 bytes. -/
def u64ToLE (x : Nat) : List Nat :=
  [x % 256, x / 2 ^ 8 % 256, x / 2 ^ 16 % 256, x / 2 ^ 24 % 256,
   x / 2 ^ 32 % 256, x / 2 ^ 40 % 256, x / 2 ^ 48 % 256, x / 2 ^ 56 % 256]

/-- Little-endian decoding of a byte list into a `Nat`. -/
def leToNat (bs : List Nat) : Nat :=
  bs.foldr (fun b acc => b + 256 * acc) 0

/-- The record type, `src/constructs/record.rs`: three `u64` fields in
declaration order `barcode`, `umi`, `index` (`repr(C)`). -/
structure Record where
  barcode : Nat
  umi : Nat
  index : Nat
deriving DecidableEq, Repr

/-- `Record::new`. -/
def Record.new (barcode umi index : Nat) : Record :=
  ⟨barcode, umi, index⟩

/-- `Record::as_bytes`: the 24-byte `repr(C)` little-endian image of the
record — `barcode` at offset 0, `umi` at offset 8, `index` at offset 16. -/
def Record.as_bytes (r : Record) : List Nat :=
  u64ToLE r.barcode ++ u64ToLE r.umi ++ u64ToLE r.index

/-- `Record::from_bytes`: reinterpret 24 bytes as a record (little-endian
`u64` fields at offsets 0, 8, 16). -/
def Record.from_bytes (bs : List Nat) : Record :=
  { barcode := leToNat (bs.take 8)
    umi := leToNat ((bs.drop 8).take 8)
    index := leToNat ((bs.drop 16).take 8) }

/-- The header type, `src/constructs/header.rs`: `repr(C)` with fields
`magic`, `version`, `bc_len`, `umi_len` (`u32`), `flags` (`u64`) and 8
reserved bytes. -/
structure Header where
  magic : Nat
  version : Nat
  bc_len : Nat
  umi_len : Nat
  flags : Nat
  reserved : List Nat
deriving DecidableEq, Repr

/-- `Header::new`. -/
def Header.new (bc_len umi_len : Nat) : Header :=
  { magic := MAGIC, version := VERSION, bc_len := bc_len, umi_len := umi_len
    flags := 0, reserved := List.replicate 8 0 }

/-- `Header::validate`: checks, in order, magic, version, barcode length in
`1..=32`, UMI length in `1..=32`. -/
def Header.validate (h : Header) : Except IbuError Unit :=
  if h.magic ≠ MAGIC then
    .error (.InvalidMagicNumber MAGIC h.magic)
  else if h.version ≠ VERSION then
    .error (.InvalidVersion VERSION h.version)
  else if h.bc_len = 0 ∨ h.bc_len > 32 then
    .error (.InvalidBarcodeLength h.bc_len)
  else if h.umi_len = 0 ∨ h.umi_len > 32 then
    .error (.InvalidUmiLength h.umi_len)
  else
    .ok ()

/-- `Header::as_bytes`: the 32-byte `repr(C)` little-endian image — `magic`
at offset 0, `version` at 4, `bc_len` at 8, `umi_len` at 12, `flags` at 16,
`reserved` at 24. -/
def Header.as_bytes (h : Header) : List Nat :=
  u32ToLE h.magic ++ u32ToLE h.version ++ u32ToLE h.bc_len ++
    u32ToLE h.umi_len ++ u64ToLE h.flags ++ h.reserved

/-- `Header::from_bytes`: reinterpret 32 bytes as a header. -/
def Header.from_bytes (bs : List Nat) : Header :=
  { magic := leToNat (bs.take 4)
    version := leToNat ((bs.drop 4).take 4)
    bc_len := leToNat ((bs.drop 8).take 4)
    umi_len := leToNat ((bs.drop 12).take 4)
    flags := leToNat ((bs.drop 16).take 8)
    reserved := (bs.drop 24).take 8 }

theorem leToNat_u32ToLE (x : Nat) (hx : x < 2 ^ 32) : leToNat (u32ToLE x) = x := by
  simp only [u32ToLE, leToNat, List.foldr]
  omega

theorem leToNat_u64ToLE (x : Nat) (hx : x < 2 ^ 64) : leToNat (u64ToLE x) = x := by
  simp only [u64ToLE, leToNat, List.foldr]
  omega

theorem u32ToLE_length (x : Nat) : (u32ToLE x).length = 4 := by
  simp [u32ToLE]

theorem u64ToLE_length (x : Nat) : (u64ToLE x).length = 8 := by
  simp [u64ToLE]

theorem record_as_bytes_length (r : Record) : r.as_bytes.length = RECORD_SIZE := by
  simp [Record.as_bytes, u64ToLE, RECORD_SIZE]

theorem header_as_bytes_length (h : Header) (hres : h.reserved.length = 8) :
    h.as_bytes.length = HEADER_SIZE := by
  simp [Header.as_bytes, u32ToLE, u64ToLE, HEADER_SIZE, hres]

/-- Claim C5: encoding and decoding are byte-exact inverses with the
little-endian layout of section 6: for every `Header` whose fields fit their
machine widths, `encode` yields exactly 32 bytes and `decode ∘ encode` is the
identity; for every `Record` whose fields fit in `u64`, `encode` yields
exactly 24 bytes (barcode at offset 0, umi at 8, index at 16) and
`decode ∘ encode` is the identity. -/
theorem codec_roundtrip (h : Header) (r : Record)
    (hm : h.magic < 2 ^ 32) (hv : h.version < 2 ^ 32)
    (hb : h.bc_len < 2 ^ 32) (hu : h.umi_len < 2 ^ 32)
    (hf : h.flags < 2 ^ 64) (hres : h.reserved.length = 8)
    (hrb : r.barcode < 2 ^ 64) (hru : r.umi < 2 ^ 64) (hri : r.index < 2 ^ 64) :
    Header.from_bytes h.as_bytes = h ∧ h.as_bytes.length = 32 ∧
    Record.from_bytes r.as_bytes = r ∧ r.as_bytes.length = 24 ∧
    r.as_bytes.take 8 = u64ToLE r.barcode ∧
    (r.as_bytes.drop 8).take 8 = u64ToLE r.umi ∧
    (r.as_bytes.drop 16).take 8 = u64ToLE r.index := by
  obtain ⟨ma, ve, bc, um, fl, re⟩ := h
  obtain ⟨ba, uu, ix⟩ := r
  simp only [Header.as_bytes, Record.as_bytes, Header.from_bytes,
    Record.from_bytes, u32ToLE, u64ToLE] at *
  refine ⟨?_, ?_, ?_, ?_, ?_, ?_, ?_⟩
  · simp only [List.append_assoc, List.take_append_eq_append_take,
      List.drop_append_eq_append_drop, List.length_cons, List.length_nil]
    norm_num
    refine ⟨?_, ?_, ?_, ?_, ?_, le_of_eq hres⟩ <;>
      · simp only [leToNat, List.foldr]
        omega
  · simp [hres]
  · simp only [List.append_assoc, List.take_append_eq_append_take,
      List.drop_append_eq_append_drop, List.length_cons, List.length_nil]
    norm_num
    constructor
    · simp only [leToNat, List.foldr]
      omega
    constructor
    · simp only [leToNat, List.foldr]
      omega
    · simp only [leToNat, List.foldr]
      omega
  · simp
  · simp
  · simp
  · simp

/-- Witness for C5 at a concrete header and record. -/
theorem codec_roundtrip_witness :
    Header.from_bytes (Header.new 16 12).as_bytes = Header.new 16 12 ∧
    Record.from_bytes (Record.new 7 11 13).as_bytes = Record.new 7 11 13 :=
  have h := codec_roundtrip (Header.new 16 12) (Record.new 7 11 13)
    (by decide) (by decide) (by decide) (by decide) (by decide) (by decide)
    (by simp [Record.new]) (by simp [Record.new]) (by simp [Record.new])
  ⟨h.1, h.2.2.1⟩

/-- Claim C8: `Header::validate` succeeds iff magic, version, and both
length fields are in range, and each single violation produces its distinct
error (magic checked first, then version, then barcode length, then UMI
length); lengths of exactly 1 and exactly 32 are accepted. -/
theorem validate_characterization (h : Header) :
    (h.validate = .ok () ↔
      h.magic = MAGIC ∧ h.version = VERSION ∧
      1 ≤ h.bc_len ∧ h.bc_len ≤ 32 ∧ 1 ≤ h.umi_len ∧ h.umi_len ≤ 32) ∧
    (h.magic ≠ MAGIC →
      h.validate = .error (.InvalidMagicNumber MAGIC h.magic)) ∧
    (h.magic = MAGIC → h.version ≠ VERSION →
      h.validate = .error (.InvalidVersion VERSION h.version)) ∧
    (h.magic = MAGIC → h.version = VERSION → h.bc_len = 0 ∨ h.bc_len > 32 →
      h.validate = .error (.InvalidBarcodeLength h.bc_len)) ∧
    (h.magic = MAGIC → h.version = VERSION →
      1 ≤ h.bc_len → h.bc_len ≤ 32 → h.umi_len = 0 ∨ h.umi_len > 32 →
      h.validate = .error (.InvalidUmiLength h.umi_len)) := by
  unfold Header.validate
  refine ⟨?_, ?_, ?_, ?_, ?_⟩ <;>
    · split_ifs <;> simp_all <;> omega

/-- Witness for C8: boundary lengths 1 and 32 validate, and a zero barcode
length produces the distinct `InvalidBarcodeLength` error. -/
theorem validate_characterization_witness :
    Header.validate ⟨MAGIC, VERSION, 1, 32, 0, List.replicate 8 0⟩ = .ok () ∧
    Header.validate ⟨MAGIC, VERSION, 32, 1, 0, List.replicate 8 0⟩ = .ok () ∧
    Header.validate ⟨MAGIC, VERSION, 0, 12, 0, List.replicate 8 0⟩ =
      .error (.InvalidBarcodeLength 0) :=
  ⟨(validate_characterization ⟨MAGIC, VERSION, 1, 32, 0, List.replicate 8 0⟩).1.mpr
      (by refine ⟨rfl, rfl, ?_, ?_, ?_, ?_⟩ <;> decide),
   (validate_characterization ⟨MAGIC, VERSION, 32, 1, 0, List.replicate 8 0⟩).1.mpr
      (by refine ⟨rfl, rfl, ?_, ?_, ?_, ?_⟩ <;> decide),
   (validate_characterization ⟨MAGIC, VERSION, 0, 12, 0, List.replicate 8 0⟩).2.2.2.1
      rfl rfl (Or.inl rfl)⟩

/-- The memory-mapped reader, `src/io/mmap.rs`: the mapped file bytes, the
parsed header and the record count computed at construction. -/
structure MmapReader where
  map : List Nat
  header : Header
  len : Nat
deriving DecidableEq, Repr

/-- `MmapReader::new`, given the successfully mapped file bytes.  Returns
`none` where the Rust code panics: the slice expression `&map[0..HEADER_SIZE]`
is an out-of-bounds index whenever the mapping is shorter than 32 bytes. -/
def MmapReader.new (map : List Nat) : Option (Except IbuError MmapReader) :=
  if map.length < HEADER_SIZE then
    none
  else
    match (Header.from_bytes (map.take HEADER_SIZE)).validate with
    | .error e => some (.error e)
    | .ok _ =>
      if (map.length - HEADER_SIZE) % RECORD_SIZE ≠ 0 then
        some (.error .InvalidMapSize)
      else
        some (.ok ⟨map, Header.from_bytes (map.take HEADER_SIZE),
          (map.length - HEADER_SIZE) / RECORD_SIZE⟩)

/-- The record at index `i` of the mapped region: 24 bytes starting at byte
offset `HEADER_SIZE + i * RECORD_SIZE`, reinterpreted as a `Record` (this is
what `bytemuck::cast_slice` yields element-wise). -/
def MmapReader.record (r : MmapReader) (i : Nat) : Record :=
  Record.from_bytes ((r.map.drop (HEADER_SIZE + i * RECORD_SIZE)).take RECORD_SIZE)

/-- `MmapReader::slice`: bounds-checked zero-copy view of records
`start..end_`. -/
def MmapReader.slice (r : MmapReader) (start end_ : Nat) :
    Except IbuError (List Record) :=
  if start ≥ r.len ∨ end_ > r.len then
    .error (.InvalidIndex end_ r.len)
  else if end_ ≤ start then
    .error (.InvalidIndex end_ r.len)
  else
    .ok ((List.range (end_ - start)).map fun k => r.record (start + k))

theorem slice_ok (r : MmapReader) (s e : Nat)
    (hs : s < r.len) (he : e ≤ r.len) (hlt : s < e) :
    r.slice s e = .ok ((List.range' s (e - s)).map r.record) := by
  unfold MmapReader.slice
  rw [if_neg (by omega), if_neg (by omega)]
  congr 1
  rw [List.range'_eq_map_range]
  rw [List.map_map]
  rfl

/-- Claim C7: `slice(start, end)` succeeds iff `start < len ∧ end ≤ len ∧
end > start`, in which case it returns exactly the records `start..end` in
file order (`slice(0, len)` being all records); in every other case it fails
with an `InvalidIndex` error naming the current length `len`. -/
theorem slice_spec (r : MmapReader) (s e : Nat) :
    (s < r.len ∧ e ≤ r.len ∧ s < e →
      r.slice s e = .ok ((List.range' s (e - s)).map r.record)) ∧
    (¬(s < r.len ∧ e ≤ r.len ∧ s < e) →
      r.slice s e = .error (.InvalidIndex e r.len)) ∧
    ((r.slice s e).isOk ↔ s < r.len ∧ e ≤ r.len ∧ s < e) ∧
    (0 < r.len → r.slice 0 r.len = .ok ((List.range r.len).map r.record)) := by
  have hok : s < r.len ∧ e ≤ r.len ∧ s < e →
      r.slice s e = .ok ((List.range' s (e - s)).map r.record) :=
    fun ⟨h1, h2, h3⟩ => slice_ok r s e h1 h2 h3
  have herr : ¬(s < r.len ∧ e ≤ r.len ∧ s < e) →
      r.slice s e = .error (.InvalidIndex e r.len) := by
    intro hn
    unfold MmapReader.slice
    by_cases h1 : s ≥ r.len ∨ e > r.len
    · rw [if_pos h1]
    · rw [if_neg h1, if_pos (by omega)]
  refine ⟨hok, herr, ?_, ?_⟩
  · constructor
    · intro hisok
      by_contra hn
      rw [herr hn] at hisok
      simp [Except.isOk, Except.toBool] at hisok
    · intro hc
      rw [hok hc]
      rfl
  · intro hpos
    rw [slice_ok r 0 r.len hpos (le_refl _) hpos]
    rw [List.range_eq_range']
    simp

/-- Witness for C7: on a concrete two-record view, an in-bounds slice
returns the records in file order and each out-of-bounds or inverted request
fails naming the length. -/
theorem slice_spec_witness :
    ((⟨[], Header.new 16 12, 2⟩ : MmapReader).slice 0 1).isOk ∧
    (⟨[], Header.new 16 12, 2⟩ : MmapReader).slice 2 2 =
      .error (.InvalidIndex 2 2) ∧
    (⟨[], Header.new 16 12, 2⟩ : MmapReader).slice 0 3 =
      .error (.InvalidIndex 3 2) ∧
    (⟨[], Header.new 16 12, 2⟩ : MmapReader).slice 1 0 =
      .error (.InvalidIndex 0 2) :=
  ⟨(slice_spec ⟨[], Header.new 16 12, 2⟩ 0 1).2.2.1.mpr
      (by refine ⟨?_, ?_, ?_⟩ <;> decide),
   (slice_spec ⟨[], Header.new 16 12, 2⟩ 2 2).2.1 (by decide),
   (slice_spec ⟨[], Header.new 16 12, 2⟩ 0 3).2.1 (by decide),
   (slice_spec ⟨[], Header.new 16 12, 2⟩ 1 0).2.1 (by decide)⟩

/-- Thread-count resolution at the top of `process_parallel`
(`src/io/mmap.rs` lines 292-298): `0` means all available hardware threads
(`num_cpus::get()`, passed here as `ncpus`); a nonzero request is capped at
`ncpus`.  Note: no dependence on the record count. -/
def resolve_num_threads (num_threads ncpus : Nat) : Nat :=
  if num_threads = 0 then ncpus else min num_threads ncpus

/-- The per-thread ranges spawned by `process_parallel`: thread `i` gets
`[i*(len/nt), i*(len/nt) + len/nt)`, except the last thread, whose upper
bound additionally receives `len % nt`. -/
def thread_ranges (len num_threads : Nat) : List (Nat × Nat) :=
  let records_per_thread := len / num_threads
  let remainder := len % num_threads
  (List.range num_threads).map fun i =>
    (i * records_per_thread,
     if i = num_threads - 1 then
       i * records_per_thread + records_per_thread + remainder
     else
       i * records_per_thread + records_per_thread)

/-- The worker loop of `process_parallel`: starting at `bs`, repeatedly
slice the next `BATCH_SIZE`-bounded chunk (bounded by `e`) and process its
records in order; returns the records processed, in processing order, or the
first error from `slice` (Rust's `?` is `Except.bind`). -/
def run_worker (r : MmapReader) (bs e : Nat) : Except IbuError (List Record) :=
  if bs < e then
    (r.slice bs (min (bs + BATCH_SIZE) e)).bind fun recs =>
      (run_worker r (bs + BATCH_SIZE) e).bind fun rest =>
        .ok (recs ++ rest)
  else
    .ok []
termination_by e - bs
decreasing_by
  simp only [BATCH_SIZE]
  omega

theorem exceptBind_ok {α β ε : Type} (x : α) (f : α → Except ε β) :
    (Except.ok x).bind f = f x := rfl

theorem run_worker_eq (r : MmapReader) (bs e : Nat) (he : e ≤ r.len) :
    run_worker r bs e = .ok ((List.range' bs (e - bs)).map r.record) := by
  rw [run_worker]
  split
  · next hlt =>
    rw [slice_ok r bs (min (bs + BATCH_SIZE) e) (by omega) (by omega)
      (by simp only [BATCH_SIZE]; omega)]
    rw [exceptBind_ok, run_worker_eq r (bs + BATCH_SIZE) e he, exceptBind_ok]
    by_cases hb : bs + BATCH_SIZE ≤ e
    · rw [min_eq_left hb]
      rw [← List.map_append]
      congr 1
      rw [show bs + BATCH_SIZE - bs = BATCH_SIZE from by omega]
      have h3 := List.range'_append bs BATCH_SIZE (e - (bs + BATCH_SIZE)) 1
      simp only [one_mul, mul_one] at h3
      rw [h3]
      have h4 : e - (bs + BATCH_SIZE) + BATCH_SIZE = e - bs := by omega
      rw [h4]
    · rw [min_eq_right (by omega)]
      have h0 : e - (bs + BATCH_SIZE) = 0 := by omega
      simp [h0]
  · next hge =>
    have h0 : e - bs = 0 := by omega
    simp [h0]
termination_by e - bs
decreasing_by
  simp only [BATCH_SIZE]
  omega

theorem join_uniform_ranges (q : Nat) :
    ∀ k : Nat, ((List.range k).map fun i => List.range' (i * q) q).flatten =
      List.range' 0 (k * q) := by
  intro k
  induction k with
  | zero => simp
  | succ n ih =>
    rw [List.range_succ, List.map_append, List.flatten_append, ih]
    simp only [List.map_cons, List.map_nil, List.flatten_cons,
      List.flatten_nil, List.append_nil]
    have h3 := List.range'_append 0 (n * q) q 1
    simp only [one_mul, Nat.zero_add, mul_one] at h3
    rw [h3]
    congr 1
    ring

theorem thread_ranges_get (len nt : Nat) (i : Nat) (hi : i < nt) :
    (thread_ranges len nt).get? i =
      some (i * (len / nt),
        i * (len / nt) + (if i = nt - 1 then len / nt + len % nt else len / nt)) := by
  unfold thread_ranges
  simp only [List.get?_eq_getElem?, List.getElem?_map, List.getElem?_range hi,
    Option.map_some]
  by_cases h : i = nt - 1 <;> simp [h, Nat.add_assoc]

theorem thread_ranges_join (len nt : Nat) (hnt : 0 < nt) :
    ((thread_ranges len nt).map fun p => List.range' p.1 (p.2 - p.1)).flatten =
      List.range len := by
  unfold thread_ranges
  have hsplit : List.range nt = List.range (nt - 1) ++ [nt - 1] := by
    conv_lhs => rw [show nt = (nt - 1) + 1 by omega]
    rw [List.range_succ]
  rw [hsplit]
  simp only [List.map_append, List.map_map, List.map_cons, List.map_nil,
    List.flatten_append, List.flatten_cons, List.flatten_nil, List.append_nil]
  have hcong : ∀ i ∈ List.range (nt - 1),
      ((fun p : Nat × Nat => List.range' p.1 (p.2 - p.1)) ∘ fun i =>
        (i * (len / nt),
         if i = nt - 1 then i * (len / nt) + len / nt + len % nt
         else i * (len / nt) + len / nt)) i =
      (fun i => List.range' (i * (len / nt)) (len / nt)) i := by
    intro i hi
    rw [List.mem_range] at hi
    simp only [Function.comp]
    rw [if_neg (by omega), Nat.add_sub_cancel_left]
  rw [List.map_congr_left hcong, join_uniform_ranges (len / nt) (nt - 1)]
  simp only [if_true]
  rw [Nat.add_assoc, Nat.add_sub_cancel_left]
  have h3 := List.range'_append 0 ((nt - 1) * (len / nt)) (len / nt + len % nt) 1
  simp only [one_mul, Nat.zero_add, mul_one] at h3
  rw [h3, List.range_eq_range']
  congr 1
  have hdm := Nat.div_add_mod len nt
  have hmul : (nt - 1) * (len / nt) + len / nt = nt * (len / nt) := by
    calc (nt - 1) * (len / nt) + len / nt = ((nt - 1) + 1) * (len / nt) := by ring
    _ = nt * (len / nt) := by rw [show nt - 1 + 1 = nt by omega]
  generalize hA : (nt - 1) * (len / nt) = a at hmul
  generalize hB : nt * (len / nt) = b at hmul hdm
  omega

/-- Claim C1: for every record count `len = r.len` and every thread count
`nt` actually used (`nt ≥ 1`), `process_parallel` divides `[0, len)` into
`nt` contiguous non-overlapping ranges of `len / nt` records each with the
remainder on the last range; every worker's loop succeeds and processes
exactly its range's records in order; the concatenation over threads is
exactly the sequential scan of all records, so any accumulation of a
function over records (e.g. the sum of all three fields) is identical to the
single-threaded result — including `nt > len` and `len = 0`. -/
theorem process_parallel_partition (r : MmapReader) (nt : Nat) (hnt : 0 < nt) :
    (∀ i, i < nt → (thread_ranges r.len nt).get? i =
      some (i * (r.len / nt),
        i * (r.len / nt) +
          (if i = nt - 1 then r.len / nt + r.len % nt else r.len / nt))) ∧
    (∀ p ∈ thread_ranges r.len nt,
      run_worker r p.1 p.2 = .ok ((List.range' p.1 (p.2 - p.1)).map r.record)) ∧
    ((thread_ranges r.len nt).map fun p =>
        (List.range' p.1 (p.2 - p.1)).map r.record).flatten =
      (List.range r.len).map r.record ∧
    (∀ f : Record → Nat,
      (((thread_ranges r.len nt).map fun p =>
          ((List.range' p.1 (p.2 - p.1)).map fun i => f (r.record i)).sum).sum) =
        ((List.range r.len).map fun i => f (r.record i)).sum) := by
  have hbound : ∀ p ∈ thread_ranges r.len nt, p.2 ≤ r.len := by
    intro p hp
    unfold thread_ranges at hp
    simp only [List.mem_map, List.mem_range] at hp
    obtain ⟨i, hi, rfl⟩ := hp
    simp only
    split
    · next hlast =>
      subst hlast
      have hdm := Nat.div_add_mod r.len nt
      have hmul : (nt - 1) * (r.len / nt) + r.len / nt = nt * (r.len / nt) := by
        have h : nt - 1 + 1 = nt := by omega
        calc (nt - 1) * (r.len / nt) + r.len / nt
            = ((nt - 1) + 1) * (r.len / nt) := by ring
          _ = nt * (r.len / nt) := by rw [h]
      generalize hA : (nt - 1) * (r.len / nt) = a at hmul ⊢
      generalize hB : nt * (r.len / nt) = b at hmul hdm
      omega
    · next hlast =>
      have hi' : i + 1 ≤ nt := hi
      have hle : (i + 1) * (r.len / nt) ≤ nt * (r.len / nt) :=
        Nat.mul_le_mul_right _ hi'
      have hdm : nt * (r.len / nt) ≤ r.len := by
        rw [Nat.mul_comm]
        exact Nat.div_mul_le_self r.len nt
      calc i * (r.len / nt) + r.len / nt = (i + 1) * (r.len / nt) := by ring
        _ ≤ nt * (r.len / nt) := hle
        _ ≤ r.len := hdm
  have hflat := thread_ranges_join r.len nt hnt
  refine ⟨fun i hi => thread_ranges_get r.len nt i hi,
    fun p hp => run_worker_eq r p.1 p.2 (hbound p hp), ?_, ?_⟩
  · rw [← hflat, List.map_flatten, List.map_map]
    rfl
  · intro f
    have key : ((thread_ranges r.len nt).map fun p =>
        (List.range' p.1 (p.2 - p.1)).map fun i => f (r.record i)).flatten =
        (List.range r.len).map fun i => f (r.record i) := by
      rw [← hflat, List.map_flatten, List.map_map]
      rfl
    calc ((thread_ranges r.len nt).map fun p =>
          ((List.range' p.1 (p.2 - p.1)).map fun i => f (r.record i)).sum).sum
        = (((thread_ranges r.len nt).map fun p =>
            (List.range' p.1 (p.2 - p.1)).map fun i => f (r.record i)).map
              List.sum).sum := by rw [List.map_map]; rfl
      _ = (((thread_ranges r.len nt).map fun p =>
            (List.range' p.1 (p.2 - p.1)).map fun i => f (r.record i)).flatten).sum := by
            rw [List.sum_flatten]
      _ = ((List.range r.len).map fun i => f (r.record i)).sum := by rw [key]

/-- Witness for C1 at a concrete 3-record view split over 2 threads. -/
theorem process_parallel_partition_witness :
    ((thread_ranges (3 : Nat) 2).map fun p =>
        (List.range' p.1 (p.2 - p.1)).map
          (⟨List.replicate 104 0, Header.new 16 12, 3⟩ : MmapReader).record).flatten =
      (List.range 3).map
        (⟨List.replicate 104 0, Header.new 16 12, 3⟩ : MmapReader).record :=
  (process_parallel_partition ⟨List.replicate 104 0, Header.new 16 12, 3⟩ 2
    (by decide)).2.2.1

/-- Counterexample for C4: with 4 hardware threads and a 2-record file,
`num_threads = 0` resolves to 4 spawned worker threads, not
`min(hardware_threads, len) = 2` — the code never caps at `len`. -/
theorem auto_threads_not_capped :
    ¬ ((thread_ranges 2 (resolve_num_threads 0 4)).length = min 4 2) := by
  decide

/-- Claim C4 as amended: `num_threads = 0` resolves to exactly the number of
available hardware threads (`num_cpus::get()`), with no cap at the record
count; a nonzero request is capped at the hardware thread count.  Threads in
excess of `len` simply receive empty ranges. -/
theorem resolve_threads_spec (len num_threads ncpus : Nat) :
    (thread_ranges len (resolve_num_threads 0 ncpus)).length = ncpus ∧
    (0 < num_threads →
      (thread_ranges len (resolve_num_threads num_threads ncpus)).length =
        min num_threads ncpus) := by
  constructor
  · simp [thread_ranges, resolve_num_threads]
  · intro hpos
    simp only [thread_ranges, resolve_num_threads, List.length_map,
      List.length_range]
    rw [if_neg (by omega)]

/-- Witness for C4 (amended) at concrete inputs. -/
theorem resolve_threads_spec_witness :
    (thread_ranges 2 (resolve_num_threads 0 4)).length = 4 ∧
    (thread_ranges 100 (resolve_num_threads 7 4)).length = min 7 4 :=
  ⟨(resolve_threads_spec 2 0 4).1,
   (resolve_threads_spec 100 7 4).2 (by decide)⟩

/-- The result-collection loop of `process_parallel`
(`for handle in handles { handle.join().unwrap()? }`): given the per-thread
results in thread-index order, returns `ok` or the first error. -/
def joinResults : List (Except IbuError Unit) → Except IbuError Unit
  | [] => .ok ()
  | .error e :: _ => .error e
  | .ok _ :: rest => joinResults rest

/-- How many `join()` calls the collection loop performs before returning:
the `?` operator exits the loop at the first error, so handles after the
first failing one are never joined. -/
def joinsPerformed : List (Except IbuError Unit) → Nat
  | [] => 0
  | .error _ :: _ => 1
  | .ok _ :: rest => 1 + joinsPerformed rest

/-- Counterexample for C2: if the first thread fails while a second thread
is still running, the coordinator joins only the first handle and returns —
it does not wait for every spawned worker thread. -/
theorem join_abandons_after_error :
    ¬ (joinsPerformed [Except.error IbuError.InvalidMapSize, Except.ok ()] =
        [Except.error IbuError.InvalidMapSize, Except.ok ()].length) := by
  decide

/-- Claim C2 as amended: the coordinator joins worker threads in thread-index
order and returns the error of the lowest-indexed failing thread; it waits
for all threads up to and including that one (`i + 1` joins), but threads
after the first failing one are not joined before returning (they are
abandoned, not cancelled); if every thread succeeds, all are joined and the
call succeeds. -/
theorem join_first_error (rs : List (Except IbuError Unit)) :
    (joinResults rs = .ok () ↔ ∀ x ∈ rs, x = .ok ()) ∧
    (∀ i e, rs.get? i = some (.error e) →
      (∀ j, j < i → rs.get? j = some (.ok ())) →
      joinResults rs = .error e ∧ joinsPerformed rs = i + 1) ∧
    ((∀ x ∈ rs, x = .ok ()) → joinsPerformed rs = rs.length) := by
  induction rs with
  | nil =>
    refine ⟨by simp [joinResults], ?_, by simp [joinsPerformed]⟩
    intro i e hi
    simp [List.get?] at hi
  | cons r rest ih =>
    refine ⟨?_, ?_, ?_⟩
    · cases r with
      | ok u =>
        simp only [joinResults, List.mem_cons]
        rw [ih.1]
        constructor
        · intro hall x hx
          rcases hx with h | h
          · subst h; rfl
          · exact hall x h
        · intro hall x hx
          exact hall x (Or.inr hx)
      | error e =>
        simp [joinResults]
    · intro i e hi hprev
      cases i with
      | zero =>
        simp only [List.get?] at hi
        cases r with
        | ok u => simp at hi
        | error e2 =>
          simp only [Option.some.injEq, Except.error.injEq] at hi
          subst hi
          exact ⟨rfl, rfl⟩
      | succ n =>
        have h0 := hprev 0 (Nat.succ_pos n)
        simp only [List.get?] at h0 hi
        cases r with
        | error e2 => simp at h0
        | ok u =>
          have hprev' : ∀ j, j < n → rest.get? j = some (.ok ()) := by
            intro j hj
            have := hprev (j + 1) (by omega)
            simpa [List.get?] using this
          obtain ⟨hj1, hj2⟩ := ih.2.1 n e hi hprev'
          refine ⟨?_, ?_⟩
          · simpa [joinResults] using hj1
          · simp only [joinsPerformed, hj2]
            omega
    · intro hall
      cases r with
      | ok u =>
        simp only [joinsPerformed, List.length_cons]
        rw [ih.2.2 fun x hx => hall x (List.mem_cons_of_mem _ hx)]
        omega
      | error e =>
        have := hall (.error e) (List.mem_cons_self _ _)
        simp at this

/-- Witness for C2 (amended): with results `[ok, error]`, the error of
thread 1 is returned and both handles were joined. -/
theorem join_first_error_witness :
    joinResults [Except.ok (), Except.error IbuError.InvalidMapSize] =
      .error IbuError.InvalidMapSize ∧
    joinsPerformed [Except.ok (), Except.error IbuError.InvalidMapSize] = 2 :=
  (join_first_error [Except.ok (), Except.error IbuError.InvalidMapSize]).2.1
    1 IbuError.InvalidMapSize rfl
    (by
      intro j hj
      have hj0 : j = 0 := by omega
      subst hj0
      rfl)

/-- One execution of the refill loop in `Reader::read_batch`
(`while read < buffer.len() { match inner.read(...) }`): `chunks` is the
byte source, each element being what one `read` call yields; an empty chunk
is a read returning `Ok(0)`, which breaks the loop.  Returns the bytes
obtained and the remaining source. -/
def fillLoop : List (List Nat) → Nat → List Nat × List (List Nat)
  | [], _ => ([], [])
  | c :: rest, space =>
    if space ≤ c.length then
      (c.take space, if space < c.length then c.drop space :: rest else rest)
    else if c.length = 0 then
      ([], rest)
    else
      let fl := fillLoop rest (space - c.length)
      (c ++ fl.1, fl.2)

/-- The streaming reader state, `src/io/reader.rs`: remaining byte source,
in-memory buffer, record cursor `pos`, record capacity `cap`, running byte
count `bytes_read`, and the end-of-file flag. -/
structure Reader where
  source : List (List Nat)
  buffer : List Nat
  pos : Nat
  cap : Nat
  bytes_read : Nat
  eof : Bool
deriving DecidableEq, Repr

/-- `Reader::read_batch`: refill the buffer from the source; a byte count
that is not a multiple of `RECORD_SIZE` is a `TruncatedRecord` error at
`bytes_read` plus the complete records of the refill (the error path still
consumed the source, but leaves `pos`, `cap` and `bytes_read` unchanged);
otherwise report whether any bytes were obtained. -/
def Reader.read_batch (s : Reader) : Except IbuError Bool × Reader :=
  let fl := fillLoop s.source DEFAULT_BUFFER_SIZE
  let read := fl.1.length
  if read % RECORD_SIZE ≠ 0 then
    (.error (.TruncatedRecord (s.bytes_read + (read - read % RECORD_SIZE))),
     { s with source := fl.2, buffer := fl.1 })
  else
    (.ok (decide (0 < read)),
     { s with
        source := fl.2
        buffer := fl.1
        pos := 0
        cap := read / RECORD_SIZE
        bytes_read := s.bytes_read + read })

/-- `Iterator::next` for `Reader`: `None` once `eof` is set; refills when the
buffer is exhausted; an error from `read_batch` is yielded as an item
without setting `eof`; a zero-byte refill sets `eof` and ends iteration;
otherwise the next record is decoded from the buffer at `pos`. -/
def Reader.next (s : Reader) : Option (Except IbuError Record) × Reader :=
  if s.eof then
    (none, s)
  else if s.pos ≥ s.cap then
    match s.read_batch with
    | (.error e, s') => (some (.error e), s')
    | (.ok b, s') =>
      if b then
        (some (.ok (Record.from_bytes
           ((s'.buffer.drop (RECORD_SIZE * s'.pos)).take RECORD_SIZE))),
         { s' with pos := s'.pos + 1 })
      else
        (none, { s' with eof := true })
  else
    (some (.ok (Record.from_bytes
       ((s.buffer.drop (RECORD_SIZE * s.pos)).take RECORD_SIZE))),
     { s with pos := s.pos + 1 })

/-- Iterate `next` a given number of times, collecting the yielded items. -/
def Reader.run : Reader → Nat → List (Option (Except IbuError Record))
  | _, 0 => []
  | s, n + 1 => (s.next).1 :: Reader.run (s.next).2 n

/-- `Reader::new`: `read_exact` the 32-byte header prefix (an exhausted
source before 32 bytes is an `UnexpectedEof` I/O error), then validate. -/
def Reader.new (chunks : List (List Nat)) : Except IbuError Reader :=
  let fl := fillLoop chunks HEADER_SIZE
  if fl.1.length < HEADER_SIZE then
    .error .IoFailure
  else
    let header := Header.from_bytes fl.1
    match header.validate with
    | .error e => .error e
    | .ok _ => .ok ⟨fl.2, [], 0, 0, HEADER_SIZE, false⟩

/-- Claim C6: a refill obtaining `k` bytes with `k % 24 ≠ 0` fails with
`TruncatedRecord` positioned at `bytes_read` plus the refill's complete
records (the byte offset at which the incomplete record begins); `k = 0` is
clean end-of-stream (`Ok(false)`, no error); a positive multiple of 24 is a
successful refill; and, for a mapped file of at least header size with a
valid header, construction fails with `InvalidMapSize` exactly when
`(mapped_length - 32) % 24 ≠ 0`. -/
theorem truncation_detection :
    (∀ s : Reader,
      ((fillLoop s.source DEFAULT_BUFFER_SIZE).1.length % RECORD_SIZE ≠ 0 →
        (s.read_batch).1 = .error (.TruncatedRecord (s.bytes_read +
          ((fillLoop s.source DEFAULT_BUFFER_SIZE).1.length -
           (fillLoop s.source DEFAULT_BUFFER_SIZE).1.length % RECORD_SIZE)))) ∧
      ((fillLoop s.source DEFAULT_BUFFER_SIZE).1.length = 0 →
        (s.read_batch).1 = .ok false) ∧
      ((fillLoop s.source DEFAULT_BUFFER_SIZE).1.length % RECORD_SIZE = 0 →
        0 < (fillLoop s.source DEFAULT_BUFFER_SIZE).1.length →
        (s.read_batch).1 = .ok true)) ∧
    (∀ map : List Nat, HEADER_SIZE ≤ map.length →
      (Header.from_bytes (map.take HEADER_SIZE)).validate = .ok () →
      (MmapReader.new map = some (.error .InvalidMapSize) ↔
        (map.length - HEADER_SIZE) % RECORD_SIZE ≠ 0)) := by
  constructor
  · intro s
    refine ⟨?_, ?_, ?_⟩
    · intro hmod
      unfold Reader.read_batch
      rw [if_pos hmod]
    · intro hzero
      unfold Reader.read_batch
      rw [if_neg (by rw [hzero]; decide)]
      simp [hzero]
    · intro hmod hpos
      unfold Reader.read_batch
      rw [if_neg (by simp [hmod])]
      simp [hpos]
  · intro map hlen hval
    unfold MmapReader.new
    rw [if_neg (by omega), hval]
    by_cases hmod : (map.length - HEADER_SIZE) % RECORD_SIZE ≠ 0
    · rw [if_pos hmod]
      simp [hmod]
    · rw [if_neg hmod]
      simp only [hmod, iff_false]
      intro hcontra
      simp at hcontra

/-- Witness for C6: a 33-byte mapping with a valid header fails with
`InvalidMapSize` (1 trailing byte), and a post-header state whose source
yields 35 bytes fails with `TruncatedRecord` at offset 56. -/
theorem truncation_detection_witness :
    MmapReader.new ((Header.new 16 12).as_bytes ++ [0]) =
      some (.error .InvalidMapSize) ∧
    ((⟨[List.replicate 35 7], [], 0, 0, 32, false⟩ : Reader).read_batch).1 =
      .error (.TruncatedRecord 56) :=
  ⟨(truncation_detection.2 ((Header.new 16 12).as_bytes ++ [0])
      (by decide) (by rfl)).mpr (by decide),
   by
    have h := (truncation_detection.1
      ⟨[List.replicate 35 7], [], 0, 0, 32, false⟩).1 (by decide)
    rw [h]
    rfl⟩

/-- Claim C10 (failing input): for a mapped file shorter than the 32-byte
header, `MmapReader::new` panics (out-of-bounds slice `&map[0..32]`, here
`none`) instead of returning an error, while the streaming `Reader::new` on
the same short input returns an `UnexpectedEof` I/O error as the spec
requires. -/
theorem short_input_behavior :
    MmapReader.new (List.replicate 10 0) = none ∧
    Reader.new [List.replicate 10 0] = .error .IoFailure := by
  constructor
  · rfl
  · rfl

/-- A byte source whose first refill yields 35 bytes (not a multiple of 24)
followed by an `Ok(0)` read, and whose next refill yields one whole record:
header, then 35 bytes, then a pause, then 24 zero bytes. -/
def cexChunks : List (List Nat) :=
  [(Header.new 16 12).as_bytes ++ List.replicate 35 7, [], List.replicate 24 0]

/-- The reader constructed over `cexChunks` (construction succeeds). -/
def cexReader : Reader :=
  match Reader.new cexChunks with
  | .ok r => r
  | .error _ => ⟨[], [], 0, 0, 0, false⟩

/-- Counterexample for C3: after the iterator yields its first error (a
`TruncatedRecord` at offset 56), the very next call to `next` performs
another refill of the source and yields a further record — the sequence does
not permanently terminate. -/
theorem reader_emits_after_error :
    cexReader.run 2 =
      [some (.error (.TruncatedRecord 56)), some (.ok (Record.new 0 0 0))] := by
  rfl

/-- Claim C3 as amended: the first error does not latch: an error item from
`read_batch` leaves `eof` unset and `pos`/`cap` unchanged, so the following
`next` call attempts another refill of the source and may yield a further
error or a further record; iteration ends only when a refill obtains zero
bytes. -/
theorem reader_error_no_latch (s : Reader) (e : IbuError) (s' : Reader)
    (hne : s.eof = false) (hpc : s.cap ≤ s.pos)
    (hrb : s.read_batch = (.error e, s')) :
    s.next = (some (.error e), s') ∧
    s'.eof = false ∧ s'.cap ≤ s'.pos ∧
    (∀ e2 s'', s'.read_batch = (.error e2, s'') →
      (s'.next).1 = some (.error e2)) ∧
    (∀ s'', s'.read_batch = (.ok true, s'') →
      (s'.next).1 = some (.ok (Record.from_bytes
        ((s''.buffer.drop (RECORD_SIZE * s''.pos)).take RECORD_SIZE)))) := by
  have hfields : s'.eof = s.eof ∧ s'.pos = s.pos ∧ s'.cap = s.cap := by
    simp only [Reader.read_batch] at hrb
    split at hrb
    · rw [Prod.mk.injEq] at hrb
      rw [← hrb.2]
      exact ⟨rfl, rfl, rfl⟩
    · rw [Prod.mk.injEq] at hrb
      exact absurd hrb.1 (by simp)
  obtain ⟨hf1, hf2, hf3⟩ := hfields
  have hnext : s.next = (some (.error e), s') := by
    unfold Reader.next
    rw [if_neg (by simp [hne]), if_pos (by omega), hrb]
  refine ⟨hnext, by rw [hf1, hne], by omega, ?_, ?_⟩
  · intro e2 s'' hrb2
    unfold Reader.next
    rw [if_neg (by simp [hf1, hne]), if_pos (by omega), hrb2]
  · intro s'' hrb2
    unfold Reader.next
    rw [if_neg (by simp [hf1, hne]), if_pos (by omega), hrb2]
    rfl

/-- Witness for C3 (amended) at the concrete reader over `cexChunks`. -/
theorem reader_error_no_latch_witness :
    cexReader.next =
      (some (.error (.TruncatedRecord 56)), (cexReader.read_batch).2) ∧
    ((cexReader.read_batch).2.next).1 = some (.ok (Record.from_bytes
      ((((cexReader.read_batch).2.read_batch).2.buffer.drop
          (RECORD_SIZE * ((cexReader.read_batch).2.read_batch).2.pos)).take
        RECORD_SIZE))) :=
  have h := reader_error_no_latch cexReader (.TruncatedRecord 56)
    (cexReader.read_batch).2 (by rfl) (by decide) (by rfl)
  ⟨h.1, h.2.2.2.2 ((cexReader.read_batch).2.read_batch).2 (by rfl)⟩

/-- The buffered writer state, `src/io/writer.rs`.  `inner` is the sink's
accumulated bytes (a `Vec<u8>` sink); `buf` models `buffer[..pos]`, the
pending bytes of the fixed `DEFAULT_BUFFER_SIZE`-capacity buffer (so `pos`
is `buf.length`); `records_written` is the running record count. -/
structure Writer where
  inner : List Nat
  buf : List Nat
  records_written : Nat
deriving DecidableEq, Repr

/-- `Writer::flush_buffer`: if any bytes are pending, `write_all` them to
the sink and reset the cursor. -/
def Writer.flush_buffer (w : Writer) : Writer :=
  if 0 < w.buf.length then ⟨w.inner ++ w.buf, [], w.records_written⟩ else w

/-- `Writer::new`: writes the encoded header immediately to the sink. -/
def Writer.new (header : Header) : Writer :=
  ⟨header.as_bytes, [], 0⟩

/-- `Writer::new_headless`: no header is written. -/
def Writer.new_headless : Writer :=
  ⟨[], [], 0⟩

/-- `Writer::write_record`: flush if the buffer lacks room for one more
record, then append the encoded record and bump the count. -/
def Writer.write_record (w : Writer) (r : Record) : Writer :=
  let w1 := if w.buf.length + RECORD_SIZE > DEFAULT_BUFFER_SIZE then
    w.flush_buffer else w
  ⟨w1.inner, w1.buf ++ r.as_bytes, w1.records_written + 1⟩

/-- The buffering loop of `Writer::write_slice`
(`while !remaining.is_empty()`): copy up to the available space
(`min remaining.length (capacity - pos)` bytes) into the buffer, flush when
the buffer fills, repeat. -/
def writeSliceLoop (inner buf remaining : List Nat) : List Nat × List Nat :=
  if remaining = [] then
    (inner, buf)
  else
    if DEFAULT_BUFFER_SIZE ≤
        (buf ++ remaining.take
          (min remaining.length (DEFAULT_BUFFER_SIZE - buf.length))).length then
      writeSliceLoop
        (inner ++ (buf ++ remaining.take
          (min remaining.length (DEFAULT_BUFFER_SIZE - buf.length))))
        []
        (remaining.drop (min remaining.length (DEFAULT_BUFFER_SIZE - buf.length)))
    else
      writeSliceLoop inner
        (buf ++ remaining.take
          (min remaining.length (DEFAULT_BUFFER_SIZE - buf.length)))
        (remaining.drop (min remaining.length (DEFAULT_BUFFER_SIZE - buf.length)))
termination_by
  2 * remaining.length + (if DEFAULT_BUFFER_SIZE ≤ buf.length then 1 else 0)
decreasing_by
  · rename_i hrem hfull
    simp only [List.length_append, List.length_take, List.length_nil,
      DEFAULT_BUFFER_SIZE, RECORD_SIZE, List.length_drop] at hfull ⊢
    split_ifs <;> omega
  · rename_i hrem hfull
    have hlen : remaining.length ≠ 0 := fun hz => hrem (List.length_eq_zero.mp hz)
    simp only [List.length_append, List.length_take, List.length_nil,
      DEFAULT_BUFFER_SIZE, RECORD_SIZE, List.length_drop] at hfull ⊢
    split_ifs <;> omega

/-- `Writer::write_slice`: a batch larger than the buffer is flushed past
and written directly to the sink; otherwise it goes through the buffering
loop.  The record count grows by `buffer.len() / RECORD_SIZE`. -/
def Writer.write_slice (w : Writer) (bytes : List Nat) : Writer :=
  if bytes.length > DEFAULT_BUFFER_SIZE then
    ⟨w.flush_buffer.inner ++ bytes, w.flush_buffer.buf,
     w.flush_buffer.records_written + bytes.length / RECORD_SIZE⟩
  else
    ⟨(writeSliceLoop w.inner w.buf bytes).1,
     (writeSliceLoop w.inner w.buf bytes).2,
     w.records_written + bytes.length / RECORD_SIZE⟩

/-- `Writer::write_batch`: `bytemuck::cast_slice` of the records is their
concatenated encodings. -/
def Writer.write_batch (w : Writer) (records : List Record) : Writer :=
  w.write_slice ((records.map Record.as_bytes).flatten)

/-- `Writer::write_iter`: `write_record` for each record in order. -/
def Writer.write_iter (w : Writer) (records : List Record) : Writer :=
  records.foldl Writer.write_record w

/-- `Writer::finish`: flush the internal buffer, then flush the sink (a
no-op for a byte-accumulator sink). -/
def Writer.finish (w : Writer) : Writer :=
  w.flush_buffer

/-- `Writer::ingest`: flush `other`'s buffer, `write_slice` its accumulated
sink bytes into `self`, then clear `other`'s sink.  Returns the updated
`(self, other)` pair. -/
def Writer.ingest (w other : Writer) : Writer × Writer :=
  ((w.write_slice other.flush_buffer.inner),
   ⟨[], other.flush_buffer.buf, other.flush_buffer.records_written⟩)

theorem flush_buffer_spec (w : Writer) :
    w.flush_buffer.inner ++ w.flush_buffer.buf = w.inner ++ w.buf ∧
    w.flush_buffer.records_written = w.records_written ∧
    w.flush_buffer.buf = [] := by
  unfold Writer.flush_buffer
  split
  · exact ⟨by simp, rfl, rfl⟩
  · next hlen =>
    have hb : w.buf = [] := by
      rw [← List.length_eq_zero]
      omega
    exact ⟨rfl, rfl, hb⟩

theorem writeSliceLoop_spec (fuel : Nat) : ∀ inner buf remaining : List Nat,
    2 * remaining.length +
      (if DEFAULT_BUFFER_SIZE ≤ buf.length then 1 else 0) ≤ fuel →
    (writeSliceLoop inner buf remaining).1 ++
      (writeSliceLoop inner buf remaining).2 = inner ++ buf ++ remaining := by
  induction fuel with
  | zero =>
    intro inner buf remaining hle
    have hrem : remaining = [] := by
      rw [← List.length_eq_zero]
      split_ifs at hle <;> omega
    subst hrem
    rw [writeSliceLoop]
    simp
  | succ n ih =>
    intro inner buf remaining hle
    rw [writeSliceLoop]
    split
    · next hrem =>
      subst hrem
      simp
    · next hrem =>
      have hlen : remaining.length ≠ 0 := fun hz => hrem (List.length_eq_zero.mp hz)
      split
      · next hfull =>
        rw [ih _ _ _ ?bound]
        case bound =>
          simp only [List.length_append, List.length_take, List.length_nil,
            List.length_drop, DEFAULT_BUFFER_SIZE, RECORD_SIZE] at hfull hle ⊢
          split_ifs at hle ⊢ <;> omega
        simp only [List.append_nil, List.append_assoc]
        congr 1
        congr 1
        exact List.take_append_drop _ remaining
      · next hfull =>
        rw [ih _ _ _ ?bound2]
        case bound2 =>
          simp only [List.length_append, List.length_take, List.length_nil,
            List.length_drop, DEFAULT_BUFFER_SIZE, RECORD_SIZE] at hfull hle ⊢
          split_ifs at hle ⊢ <;> omega
        simp only [List.append_assoc]
        congr 1
        congr 1
        exact List.take_append_drop _ remaining

theorem write_record_spec (w : Writer) (r : Record) :
    (w.write_record r).inner ++ (w.write_record r).buf =
      w.inner ++ w.buf ++ r.as_bytes ∧
    (w.write_record r).records_written = w.records_written + 1 := by
  unfold Writer.write_record
  split
  · obtain ⟨h1, h2, _⟩ := flush_buffer_spec w
    constructor
    · simp only [← List.append_assoc]
      rw [← h1]
    · simp [h2]
  · exact ⟨by simp, rfl⟩

theorem write_slice_spec (w : Writer) (bytes : List Nat) :
    (w.write_slice bytes).inner ++ (w.write_slice bytes).buf =
      w.inner ++ w.buf ++ bytes ∧
    (w.write_slice bytes).records_written =
      w.records_written + bytes.length / RECORD_SIZE := by
  unfold Writer.write_slice
  obtain ⟨h1, h2, h3⟩ := flush_buffer_spec w
  split
  · constructor
    · rw [h3, List.append_nil] at h1
      show w.flush_buffer.inner ++ bytes ++ w.flush_buffer.buf =
        w.inner ++ w.buf ++ bytes
      rw [h3, List.append_nil, h1]
    · simp [h2]
  · constructor
    · exact writeSliceLoop_spec
        (2 * bytes.length + (if DEFAULT_BUFFER_SIZE ≤ w.buf.length then 1 else 0))
        w.inner w.buf bytes (le_refl _)
    · rfl

theorem write_iter_spec (ms : List Record) : ∀ w : Writer,
    (w.write_iter ms).inner ++ (w.write_iter ms).buf =
      w.inner ++ w.buf ++ (ms.map Record.as_bytes).flatten ∧
    (w.write_iter ms).records_written = w.records_written + ms.length := by
  induction ms with
  | nil =>
    intro w
    simp [Writer.write_iter]
  | cons m rest ih =>
    intro w
    obtain ⟨h1, h2⟩ := write_record_spec w m
    obtain ⟨h3, h4⟩ := ih (w.write_record m)
    constructor
    · rw [show Writer.write_iter w (m :: rest) =
        Writer.write_iter (w.write_record m) rest from rfl]
      rw [h3, h1]
      simp [List.append_assoc]
    · rw [show Writer.write_iter w (m :: rest) =
        Writer.write_iter (w.write_record m) rest from rfl]
      rw [h4, h2]
      simp only [List.length_cons]
      omega

theorem flatten_as_bytes_length (ks : List Record) :
    ((ks.map Record.as_bytes).flatten).length = RECORD_SIZE * ks.length := by
  induction ks with
  | nil => simp
  | cons k rest ih =>
    simp only [List.map_cons, List.flatten_cons, List.length_append, ih,
      List.length_cons, record_as_bytes_length]
    ring

/-- Claim C9: writing `K` records through a headless writer and ingesting it
into a headed writer that already wrote `M` records flushes the headless
writer's buffer, transfers its accumulated bytes and clears it; afterwards
the headed writer's record count is exactly `M + K`, and after `finish` its
sink's byte stream is identical to writing all `M + K` records directly. -/
theorem ingest_equivalence (h : Header) (ms ks : List Record) :
    ((((Writer.new h).write_iter ms).ingest
        (Writer.new_headless.write_iter ks)).1.records_written =
      ms.length + ks.length) ∧
    ((((Writer.new h).write_iter ms).ingest
        (Writer.new_headless.write_iter ks)).1.finish.inner =
      ((Writer.new h).write_iter (ms ++ ks)).finish.inner) ∧
    ((((Writer.new h).write_iter ms).ingest
        (Writer.new_headless.write_iter ks)).2.inner = []) ∧
    ((((Writer.new h).write_iter ms).ingest
        (Writer.new_headless.write_iter ks)).2.buf = []) := by
  obtain ⟨haux1, haux2⟩ := write_iter_spec ks Writer.new_headless
  obtain ⟨hofl, _, hobuf⟩ := flush_buffer_spec (Writer.new_headless.write_iter ks)
  have hoinner : (Writer.new_headless.write_iter ks).flush_buffer.inner =
      (ks.map Record.as_bytes).flatten := by
    rw [hobuf, List.append_nil] at hofl
    rw [hofl, haux1]
    simp [Writer.new_headless]
  obtain ⟨hmain1, hmain2⟩ := write_iter_spec ms (Writer.new h)
  obtain ⟨hsl1, hsl2⟩ := write_slice_spec ((Writer.new h).write_iter ms)
    ((Writer.new_headless.write_iter ks).flush_buffer.inner)
  refine ⟨?_, ?_, rfl, hobuf⟩
  · show (((Writer.new h).write_iter ms).write_slice
      ((Writer.new_headless.write_iter ks).flush_buffer.inner)).records_written =
      ms.length + ks.length
    rw [hsl2, hmain2, hoinner, flatten_as_bytes_length]
    rw [Nat.mul_div_cancel_left _ (by decide : 0 < RECORD_SIZE)]
    simp [Writer.new]
  · show (((Writer.new h).write_iter ms).write_slice
      ((Writer.new_headless.write_iter ks).flush_buffer.inner)).finish.inner =
      ((Writer.new h).write_iter (ms ++ ks)).finish.inner
    obtain ⟨hfin1, _, hfin1b⟩ := flush_buffer_spec
      (((Writer.new h).write_iter ms).write_slice
        ((Writer.new_headless.write_iter ks).flush_buffer.inner))
    obtain ⟨hfin2, _, hfin2b⟩ := flush_buffer_spec
      ((Writer.new h).write_iter (ms ++ ks))
    obtain ⟨hall1, _⟩ := write_iter_spec (ms ++ ks) (Writer.new h)
    unfold Writer.finish
    rw [hfin1b, List.append_nil] at hfin1
    rw [hfin2b, List.append_nil] at hfin2
    rw [hfin1, hfin2, hsl1, hmain1, hoinner, hall1]
    simp [Writer.new, List.append_assoc]

end Ibu
